import Mathlib

/-!
Verification development for the `matminer.descriptors.data` module.

The module wraps two sources of elemental property data:

* `MagpieData` — a table-backed source built by parsing per-property text
  files (`_parse`) and queried through `get_property`;
* `PymatgenData` — a live-attribute source reading named attributes off an
  external element abstraction (`get_property`), together with the pure
  string routine `get_composition_oxidation_state` that extracts oxidation
  states embedded in a formula string.

The embedding below translates the Python code into executable Lean
definitions.  External collaborators (the pymatgen periodic table, the
composition parser, Python `float` parsing of data-file lines) are taken as
parameters of the definitions, exactly at the boundary where the module
calls them.  Python exceptions are modelled by an explicit error type and
`Except`; Python `print` diagnostics are modelled as a list of emitted
strings carried alongside the error.

Machine-level caveats: Python strings are modelled as `String`/`List Char`
(the formulas at issue are ASCII); Python floats are modelled as `ℚ`, with
`float("NaN")` a distinguished table value; Python `int()` truncation of a
float toward zero is `pyInt` below.
-/

/-- Errors raised by the module.  `unknownProperty` models the `ValueError`
raised by `MagpieData.get_property` (its message enumerates the available
property names, modelled by carrying that list); `missingOxidationState`
models the `ValueError` raised for `ionic_radii` without oxidation states;
`attributeMissing` models `AttributeError`; the remaining constructors model
`KeyError`, `TypeError`, `IndexError` and other `ValueError`s (failed
`int()` parses and failed 2-tuple unpacking of `str.split`). -/
inductive PyErr where
  | unknownProperty (available : List String)
  | missingOxidationState (propName : String)
  | attributeMissing (attrName : String)
  | keyError
  | typeError
  | indexError
  | valueError
deriving DecidableEq

deriving instance DecidableEq for Except

/-- Python `str.strip()`: remove leading and trailing whitespace. -/
def pyStrip (l : List Char) : List Char :=
  ((l.dropWhile Char.isWhitespace).reverse.dropWhile Char.isWhitespace).reverse

/-- Python `re.split(pat, s)` where `pat` matches maximal nonempty runs of
characters satisfying `p`: the pieces between the runs, empty pieces
included.  `re.split` always returns at least one piece. -/
def splitRuns (p : Char → Bool) : List Char → List (List Char)
  | [] => [[]]
  | c :: cs =>
    if p c then
      match cs with
      | d :: _ => if p d then splitRuns p cs else [] :: splitRuns p cs
      | [] => [] :: splitRuns p cs
    else
      match splitRuns p cs with
      | [] => [[c]]
      | h :: t => (c :: h) :: t

/-- Python `re.split(pat, s)` where `pat` matches a single character
satisfying `p` (used for `re.split("\\d", s)`). -/
def splitSingles (p : Char → Bool) : List Char → List (List Char)
  | [] => [[]]
  | c :: cs =>
    if p c then [] :: splitSingles p cs
    else
      match splitSingles p cs with
      | [] => [[c]]
      | h :: t => (c :: h) :: t

/-- Text strictly after the last maximal nonempty run of characters
satisfying `p`; the whole list when no character satisfies `p`.  Used by the
amended reading of the oxidation-state parser. -/
def afterLastRun (p : Char → Bool) : List Char → List Char
  | [] => []
  | c :: cs => if cs.any p then afterLastRun p cs else if p c then cs else c :: cs

/-- Whether `pat` is an initial segment of `l`. -/
def listStarts : List Char → List Char → Bool
  | [], _ => true
  | _ :: _, [] => false
  | a :: as, b :: bs => a = b && listStarts as bs

/-- Python `s.split(sep, 1)` restricted to the found case: `some (before,
after)` splits at the first occurrence of `sep`, `none` when `sep` does not
occur (in which case Python returns the 1-element list `[s]` and the
2-tuple unpacking in the caller raises `ValueError`). -/
def pySplitOnce (sep : List Char) : List Char → Option (List Char × List Char)
  | [] => if listStarts sep [] then some ([], []) else none
  | c :: cs =>
    if listStarts sep (c :: cs) then some ([], (c :: cs).drop sep.length)
    else (pySplitOnce sep cs).map (fun ba => (c :: ba.1, ba.2))

/-- Accumulates the value of a nonempty all-digit run; `none` on any
non-digit. -/
def digitsToNatAux : List Char → Nat → Option Nat
  | [], acc => some acc
  | c :: cs, acc =>
    if c.isDigit then digitsToNatAux cs (acc * 10 + (c.toNat - 48)) else none

/-- Value of a nonempty all-digit run; `none` otherwise. -/
def digitsToNat : List Char → Option Nat
  | [] => none
  | l => digitsToNatAux l 0

/-- Python `int(s)` on a string: optional surrounding whitespace, optional
sign, then digits; `none` models the `ValueError` on anything else. -/
def pyIntOfString (l : List Char) : Option Int :=
  match pyStrip l with
  | '+' :: ds => (digitsToNat ds).map Int.ofNat
  | '-' :: ds => (digitsToNat ds).map (fun n => -(n : Int))
  | ds => (digitsToNat ds).map Int.ofNat

/-- Python dict assignment `d[k] = v` on an insertion-ordered association
list: replaces the value in place when the key is present, appends
otherwise. -/
def dictUpd {α : Type} (k : String) (v : α) : List (String × α) → List (String × α)
  | [] => [(k, v)]
  | (k2, v2) :: rest => if k2 = k then (k2, v) :: rest else (k2, v2) :: dictUpd k v rest

/-- Effectful map over a list in the `Except` monad, stopping at the first
error; written as an explicit recursion so that its equations unfold. -/
def mapME {α β : Type} (f : α → Except PyErr β) : List α → Except PyErr (List β)
  | [] => .ok []
  | a :: as =>
    match f a with
    | .error e => .error e
    | .ok b =>
      match mapME f as with
      | .error e => .error e
      | .ok bs => .ok (b :: bs)

/-- Python `int(x)` on a float modelled as `ℚ`: truncation toward zero. -/
def pyInt (q : ℚ) : Int := q.num.tdiv q.den

/-- Amount of element `s` in an element→amount dict (`el_amt[s]`); the
callers only look up keys of the dict, so the default is never reached. -/
def amtOf (d : List (String × ℚ)) (s : String) : ℚ := (List.lookup s d).getD 0

/-- Comparison of element symbols by the external electronegativity
function `X` (the sort key `lambda sym: get_el_sp(sym).X`). -/
def leX (X : String → ℚ) (a b : String) : Prop := X a ≤ X b

instance (X : String → ℚ) : DecidableRel (leX X) :=
  fun a b => inferInstanceAs (Decidable (X a ≤ X b))

instance (X : String → ℚ) : IsTotal String (leX X) :=
  ⟨fun a b => le_total (X a) (X b)⟩

instance (X : String → ℚ) : IsTrans String (leX X) :=
  ⟨fun _ _ _ h h2 => le_trans h h2⟩

/-- Python `sorted(el_amt.keys(), key=lambda sym: get_el_sp(sym).X)`: the
element symbols of the composition sorted by ascending electronegativity
(a stable sort; ties keep dict order, which neither the code nor the spec
pins down further). -/
def sortedSymbols (X : String → ℚ) (d : List (String × ℚ)) : List String :=
  List.insertionSort (leX X) (d.map Prod.fst)

/-- Token extraction step of `PymatgenData.get_composition_oxidation_state`
for one segment `na` of the `re.split('[a-z]+', formula, flags=re.IGNORECASE)`
result: when the stripped segment contains a sign, Python computes
`digits = re.split('[+-]+', s)`, `sign_tmp = re.split('\\d+', s)`,
`sign = [x.strip() for x in sign_tmp if x.strip() != ""]` and appends
`sign[-1] + digits[-1].strip()`; `sign[-1]` on an empty list would raise
`IndexError`. -/
def PymatgenData.extractToken (na : List Char) : Except PyErr (Option (List Char)) :=
  let s := pyStrip na
  if s ≠ [] ∧ ('+' ∈ s ∨ '-' ∈ s) then
    let digits := splitRuns (fun c => c == '+' || c == '-') s
    let sign_tmp := splitRuns Char.isDigit s
    let sign := (sign_tmp.map pyStrip).filter (fun x => x ≠ [])
    match sign.getLast? with
    | none => .error PyErr.indexError
    | some sg => .ok (some (sg ++ pyStrip (digits.getLastD [])))
  else .ok none

/-- Loop `before, after = tuple(after.split(oxs, 1)); formula_plain.append(before)`
over the remaining tokens, threading the accumulated `formula_plain`. -/
def PymatgenData.buildRestAux : List (List Char) → List Char → List (List Char) →
    Except PyErr (List (List Char))
  | [], _, acc => .ok acc
  | t :: ts, rem, acc =>
    match pySplitOnce t rem with
    | none => .error PyErr.valueError
    | some ba => PymatgenData.buildRestAux ts ba.2 (acc ++ [ba.1])

/-- Loop `for i, g in enumerate(formula_plain):
`oxidation_states_dict[str(Element(el))] = int(oxidation_states[i])` where
`el = re.split("\\d", g.strip())[0]`.  The external `str(Element(el))`
round-trips a canonical symbol and is modelled as the identity on the
extracted symbol. -/
def PymatgenData.buildDictAux : List (List Char × List Char) → List (String × Int) →
    Except PyErr (List (String × Int))
  | [], d => .ok d
  | gt :: rest, d =>
    let el := (splitSingles Char.isDigit (pyStrip gt.1)).headD []
    match pyIntOfString gt.2 with
    | none => .error PyErr.valueError
    | some n => PymatgenData.buildDictAux rest (dictUpd (String.mk el) n d)

/-- Tail of `get_composition_oxidation_state` once the oxidation-state
tokens have been collected: `return` early on no tokens, otherwise split
the formula at the first token, run the `before/after` loop on the rest,
build the dict, and join the collected pieces into the plain formula. -/
def PymatgenData.tokensToResult (formula : String) :
    List (List Char) → Except PyErr (String × List (String × Int))
  | [] => .ok (formula, [])
  | t0 :: rest =>
    match pySplitOnce t0 formula.data with
    | none => .error PyErr.valueError
    | some ba =>
      match PymatgenData.buildRestAux rest ba.2 [ba.1] with
      | .error e => .error e
      | .ok formula_plain =>
        match PymatgenData.buildDictAux (formula_plain.zip (t0 :: rest)) [] with
        | .error e => .error e
        | .ok d => .ok (String.mk formula_plain.flatten, d)

/-- Embedding of `PymatgenData.get_composition_oxidation_state`.  The
returned `String` is the plain formula handed to the external `Composition`
constructor, and the association list is the oxidation-state dict in
insertion order. -/
def PymatgenData.get_composition_oxidation_state (formula : String) :
    Except PyErr (String × List (String × Int)) :=
  let non_alphabets := splitRuns Char.isAlpha formula.data
  if non_alphabets = [] then .ok (formula, [])
  else
    match mapME PymatgenData.extractToken non_alphabets with
    | .error e => .error e
    | .ok opts => PymatgenData.tokensToResult formula opts.reduceOption

/-! ### Basic lemmas about the string helpers -/

theorem splitRuns_nil (p : Char → Bool) : splitRuns p [] = [[]] := rfl

theorem splitRuns_sep_nil {p : Char → Bool} {c : Char} (hp : p c = true) :
    splitRuns p [c] = [[], []] := by
  unfold splitRuns
  rw [if_pos hp]
  rfl

theorem splitRuns_sep_sep {p : Char → Bool} {c d : Char} (ds : List Char)
    (hp : p c = true) (hd : p d = true) :
    splitRuns p (c :: d :: ds) = splitRuns p (d :: ds) := by
  conv_lhs => unfold splitRuns
  rw [if_pos hp]
  show (if p d = true then splitRuns p (d :: ds) else [] :: splitRuns p (d :: ds)) =
    splitRuns p (d :: ds)
  rw [if_pos hd]

theorem splitRuns_sep_nonsep {p : Char → Bool} {c d : Char} (ds : List Char)
    (hp : p c = true) (hd : p d = false) :
    splitRuns p (c :: d :: ds) = [] :: splitRuns p (d :: ds) := by
  conv_lhs => unfold splitRuns
  rw [if_pos hp]
  show (if p d = true then splitRuns p (d :: ds) else [] :: splitRuns p (d :: ds)) =
    [] :: splitRuns p (d :: ds)
  rw [if_neg (by simp [hd])]

theorem splitRuns_nonsep {p : Char → Bool} {c : Char} {cs h : List Char}
    {t : List (List Char)} (hp : p c = false) (hs : splitRuns p cs = h :: t) :
    splitRuns p (c :: cs) = (c :: h) :: t := by
  conv_lhs => unfold splitRuns
  rw [if_neg (by simp [hp]), hs]

theorem splitRuns_ne_nil (p : Char → Bool) (l : List Char) : splitRuns p l ≠ [] := by
  induction l with
  | nil => simp [splitRuns_nil]
  | cons c cs ih =>
    by_cases hp : p c
    · cases cs with
      | nil => simp [splitRuns_sep_nil hp]
      | cons d ds =>
        by_cases hd : p d
        · rw [splitRuns_sep_sep ds hp hd]; exact ih
        · rw [splitRuns_sep_nonsep ds hp (Bool.of_not_eq_true hd)]; simp
    · cases hs : splitRuns p cs with
      | nil => exact absurd hs ih
      | cons h t => simp [splitRuns_nonsep (Bool.of_not_eq_true hp) hs]

theorem mem_of_mem_dropWhile {p : Char → Bool} {l : List Char} {c : Char}
    (h : c ∈ l.dropWhile p) : c ∈ l := by
  induction l with
  | nil => simp at h
  | cons a t ih =>
    by_cases hp : p a
    · simp only [List.dropWhile_cons, hp, if_true] at h
      exact List.mem_cons_of_mem a (ih h)
    · simp only [List.dropWhile_cons, hp] at h
      simpa using h

theorem mem_of_mem_pyStrip {l : List Char} {c : Char} (h : c ∈ pyStrip l) : c ∈ l := by
  unfold pyStrip at h
  rw [List.mem_reverse] at h
  have h2 := mem_of_mem_dropWhile h
  rw [List.mem_reverse] at h2
  exact mem_of_mem_dropWhile h2

theorem mem_of_mem_splitRuns {p : Char → Bool} {l : List Char} {piece : List Char}
    {c : Char} (hpc : piece ∈ splitRuns p l) (hc : c ∈ piece) : c ∈ l := by
  induction l generalizing piece with
  | nil =>
    rw [splitRuns_nil] at hpc
    simp only [List.mem_singleton] at hpc
    subst hpc
    simp at hc
  | cons a t ih =>
    by_cases hp : p a
    · cases t with
      | nil =>
        rw [splitRuns_sep_nil hp] at hpc
        rcases List.mem_cons.mp hpc with h1 | h1
        · subst h1; simp at hc
        · rw [List.mem_singleton] at h1; subst h1; simp at hc
      | cons d ds =>
        by_cases hd : p d
        · rw [splitRuns_sep_sep ds hp hd] at hpc
          exact List.mem_cons_of_mem a (ih hpc hc)
        · rw [splitRuns_sep_nonsep ds hp (Bool.of_not_eq_true hd)] at hpc
          rcases List.mem_cons.mp hpc with h1 | h1
          · subst h1; simp at hc
          · exact List.mem_cons_of_mem a (ih h1 hc)
    · cases hs : splitRuns p t with
      | nil => exact absurd hs (splitRuns_ne_nil p t)
      | cons h2 t2 =>
        rw [splitRuns_nonsep (Bool.of_not_eq_true hp) hs] at hpc
        rcases List.mem_cons.mp hpc with h1 | h1
        · subst h1
          rcases List.mem_cons.mp hc with h3 | h3
          · simp [h3]
          · exact List.mem_cons_of_mem a (ih (hs ▸ List.mem_cons_self h2 t2) h3)
        · exact List.mem_cons_of_mem a (ih (hs ▸ List.mem_cons_of_mem h2 h1) hc)

theorem mapME_all_ok {α β : Type} {f : α → Except PyErr β} {g : α → β} {l : List α}
    (h : ∀ a ∈ l, f a = .ok (g a)) : mapME f l = .ok (l.map g) := by
  induction l with
  | nil => rfl
  | cons a t ih =>
    have ha := h a (List.mem_cons_self a t)
    have ht := ih fun x hx => h x (List.mem_cons_of_mem a hx)
    simp [mapME, ha, ht]

theorem reduceOption_all_none {α : Type} {l : List (Option α)}
    (h : ∀ x ∈ l, x = none) : l.reduceOption = [] := by
  induction l with
  | nil => rfl
  | cons a t ih =>
    have ha := h a (List.mem_cons_self a t)
    subst ha
    rw [List.reduceOption_cons_of_none]
    exact ih fun x hx => h x (List.mem_cons_of_mem none hx)

/-- A segment with no sign character yields no oxidation-state token. -/
theorem PymatgenData.extractToken_no_sign {na : List Char}
    (h : ∀ c ∈ na, c ≠ '+' ∧ c ≠ '-') :
    PymatgenData.extractToken na = .ok none := by
  unfold PymatgenData.extractToken
  have hcond : ¬ (pyStrip na ≠ [] ∧ ('+' ∈ pyStrip na ∨ '-' ∈ pyStrip na)) := by
    rintro ⟨-, hmem | hmem⟩
    · exact (h _ (mem_of_mem_pyStrip hmem)).1 rfl
    · exact (h _ (mem_of_mem_pyStrip hmem)).2 rfl
  simp only [ne_eq, hcond, if_false]

/-! ### Claims C2 and C4: concrete and sign-free behaviour of the parser -/

/-- Claim C2: parsing the formula string "Fe2+3O3-2" with
`get_composition_oxidation_state` returns the oxidation-state map
`Fe ↦ 3, O ↦ -2` together with the plain formula "Fe2O3" (the string handed
to the external `Composition` constructor). -/
theorem C2_parse_Fe2_3O3_2 :
    PymatgenData.get_composition_oxidation_state "Fe2+3O3-2" =
      .ok ("Fe2O3", [("Fe", 3), ("O", -2)]) := by
  decide

/-- Claim C4: a formula string containing no sign character at all produces
the formula itself (parsed as a plain composition by the external parser)
and an empty oxidation-state map. -/
theorem C4_no_sign_formula (formula : String)
    (h : ∀ c ∈ formula.data, c ≠ '+' ∧ c ≠ '-') :
    PymatgenData.get_composition_oxidation_state formula = .ok (formula, []) := by
  unfold PymatgenData.get_composition_oxidation_state
  have htok : ∀ na ∈ splitRuns Char.isAlpha formula.data,
      PymatgenData.extractToken na = .ok (none : Option (List Char)) := by
    intro na hna
    exact PymatgenData.extractToken_no_sign
      (fun c hc => h c (mem_of_mem_splitRuns hna hc))
  by_cases hnil : splitRuns Char.isAlpha formula.data = []
  · simp [hnil]
  · rw [if_neg hnil, mapME_all_ok htok]
    have hro : (List.map (fun _ => (none : Option (List Char)))
        (splitRuns Char.isAlpha formula.data)).reduceOption = [] :=
      reduceOption_all_none
        (by intro x hx; rcases List.mem_map.mp hx with ⟨a, -, ha⟩; exact ha.symm)
    show PymatgenData.tokensToResult formula
        (List.map (fun _ => (none : Option (List Char)))
          (splitRuns Char.isAlpha formula.data)).reduceOption = .ok (formula, [])
    rw [hro]
    rfl

/-- Witness for C4 at the concrete example "NaCl". -/
theorem C4_no_sign_formula_witness :
    PymatgenData.get_composition_oxidation_state "NaCl" = .ok ("NaCl", []) :=
  C4_no_sign_formula "NaCl" (by decide)

/-! ### Claim C3: the parsing algorithm as the spec states it

The spec describes the algorithm of `get_composition_oxidation_state` as:
split the formula on lowercase-letter runs; from each segment containing a
sign extract the trailing digit run and the sign character immediately
preceding it as a token; reconstruct the plain formula by removing exactly
the first occurrence of each token from the original string, in order; map
the leading alphabetic run of each resulting segment to the signed integer
value of its token.  `specParse` below formalises those words. -/

/-- Token extraction as the spec words it: the trailing digit run of the
segment together with the sign character immediately preceding it; no token
when the character preceding the trailing digit run is not a sign. -/
def PymatgenData.specToken (na : List Char) : Option (List Char) :=
  if '+' ∈ na ∨ '-' ∈ na then
    let ds := (na.reverse.takeWhile Char.isDigit).reverse
    match (na.reverse.drop ds.length).head? with
    | some c => if c = '+' ∨ c = '-' then some (c :: ds) else none
    | none => none
  else none

/-- Removal of the first occurrence of each token, in order, returning the
pieces before each removed token and the remainder after the last one. -/
def PymatgenData.specRemove : List (List Char) → List Char →
    Option (List (List Char) × List Char)
  | [], rem => some ([], rem)
  | t :: ts, rem =>
    match pySplitOnce t rem with
    | none => none
    | some ba =>
      (PymatgenData.specRemove ts ba.2).map (fun fr => (ba.1 :: fr.1, fr.2))

/-- Mapping the leading alphabetic run of each segment to the signed integer
value of the associated token, as the spec words it. -/
def PymatgenData.specDict : List (List Char × List Char) → List (String × Int) →
    Except PyErr (List (String × Int))
  | [], d => .ok d
  | gt :: rest, d =>
    let el := gt.1.takeWhile Char.isAlpha
    match pyIntOfString gt.2 with
    | none => .error PyErr.valueError
    | some n => PymatgenData.specDict rest (dictUpd (String.mk el) n d)

/-- The oxidation-state parsing algorithm exactly as the spec sentences of
claim C3 state it (in particular, splitting on runs of lowercase letters). -/
def PymatgenData.specParse (formula : String) :
    Except PyErr (String × List (String × Int)) :=
  let segs := splitRuns Char.isLower formula.data
  match (segs.map PymatgenData.specToken).reduceOption with
  | [] => .ok (formula, [])
  | toks =>
    match PymatgenData.specRemove toks formula.data with
    | none => .error PyErr.valueError
    | some fr =>
      match PymatgenData.specDict (fr.1.zip toks) [] with
      | .error e => .error e
      | .ok d => .ok (String.mk ((fr.1 ++ [fr.2]).flatten), d)

/-! ### Claim C3: amended description of the parsing algorithm

The code differs from the spec sentences in two ways: the split is on runs
of letters of either case (`re.IGNORECASE`), and the plain formula keeps
only the text before each token (text after the last token is discarded
rather than kept).  The definitions below formalise the amended wording;
`C3_parser_algorithm` proves that the code follows it on every input. -/

/-- Amended token extraction: from each whitespace-stripped segment
containing a sign, the token is the last maximal nonempty (after stripping)
non-digit chunk of the segment followed by the stripped text after the last
maximal run of sign characters. -/
def PymatgenData.amendedToken (na : List Char) : Except PyErr (Option (List Char)) :=
  let s := pyStrip na
  if s ≠ [] ∧ ('+' ∈ s ∨ '-' ∈ s) then
    match ((splitRuns Char.isDigit s).map pyStrip).reverse.find? (fun x => x ≠ []) with
    | none => .error PyErr.indexError
    | some sg => .ok (some (sg ++ pyStrip (afterLastRun (fun c => c == '+' || c == '-') s)))
  else .ok none

/-- Amended reconstruction: the fragments strictly before each token
occurrence, in order; the remainder after the last token is discarded. -/
def PymatgenData.amendedFragments : List (List Char) → List Char →
    Except PyErr (List (List Char))
  | [], _ => .ok []
  | t :: ts, rem =>
    match pySplitOnce t rem with
    | none => .error PyErr.valueError
    | some ba =>
      match PymatgenData.amendedFragments ts ba.2 with
      | .error e => .error e
      | .ok l => .ok (ba.1 :: l)

/-- Amended symbol mapping: the leading run of non-digit characters of each
whitespace-stripped fragment maps to the signed integer value of the
corresponding token. -/
def PymatgenData.amendedDict : List (List Char × List Char) → List (String × Int) →
    Except PyErr (List (String × Int))
  | [], d => .ok d
  | gt :: rest, d =>
    let el := (pyStrip gt.1).takeWhile (fun c => !c.isDigit)
    match pyIntOfString gt.2 with
    | none => .error PyErr.valueError
    | some n => PymatgenData.amendedDict rest (dictUpd (String.mk el) n d)

/-- Tail of the amended algorithm once the tokens are collected. -/
def PymatgenData.amendedTokensToResult (formula : String) :
    List (List Char) → Except PyErr (String × List (String × Int))
  | [] => .ok (formula, [])
  | t0 :: rest =>
    match PymatgenData.amendedFragments (t0 :: rest) formula.data with
    | .error e => .error e
    | .ok frags =>
      match PymatgenData.amendedDict (frags.zip (t0 :: rest)) [] with
      | .error e => .error e
      | .ok d => .ok (String.mk frags.flatten, d)

/-- The parsing algorithm in its amended wording. -/
def PymatgenData.amendedParse (formula : String) :
    Except PyErr (String × List (String × Int)) :=
  match mapME PymatgenData.amendedToken (splitRuns Char.isAlpha formula.data) with
  | .error e => .error e
  | .ok opts => PymatgenData.amendedTokensToResult formula opts.reduceOption

/-! ### Equivalence lemmas between the code embedding and the amended model -/

theorem filter_getLast?_eq_reverse_find? {α : Type} (p : α → Bool) (l : List α) :
    (l.filter p).getLast? = l.reverse.find? p := by
  have key : ∀ m : List α, (m.reverse.filter p).getLast? = m.find? p := by
    intro m
    induction m with
    | nil => rfl
    | cons a t ih =>
      by_cases hp : p a
      · simp [List.filter_append, hp, List.getLast?_concat, List.find?_cons_of_pos]
      · simp only [List.reverse_cons, List.filter_append, List.filter_cons, hp,
          Bool.false_eq_true, if_false, List.filter_nil, List.append_nil]
        rw [ih, List.find?_cons_of_neg _ hp]
  have h2 := key l.reverse
  rwa [List.reverse_reverse] at h2

theorem splitRuns_all_nonsep {p : Char → Bool} {l : List Char}
    (h : l.any p = false) : splitRuns p l = [l] := by
  induction l with
  | nil => rfl
  | cons c cs ih =>
    simp only [List.any_cons, Bool.or_eq_false_iff] at h
    exact splitRuns_nonsep h.1 (ih h.2)

theorem splitRuns_length_of_any {p : Char → Bool} {l : List Char}
    (h : l.any p = true) : 2 ≤ (splitRuns p l).length := by
  induction l with
  | nil => simp at h
  | cons c cs ih =>
    by_cases hp : p c
    · cases cs with
      | nil => simp [splitRuns_sep_nil hp]
      | cons d ds =>
        by_cases hd : p d
        · rw [splitRuns_sep_sep ds hp hd]
          exact ih (by simp [hd])
        · rw [splitRuns_sep_nonsep ds hp (Bool.of_not_eq_true hd)]
          have hpos : 0 < (splitRuns p (d :: ds)).length :=
            List.length_pos.mpr (splitRuns_ne_nil p (d :: ds))
          simp only [List.length_cons]
          omega
    · have hcs : cs.any p = true := by
        simp only [List.any_cons, Bool.of_not_eq_true hp, Bool.false_or] at h
        exact h
      cases hs : splitRuns p cs with
      | nil => exact absurd hs (splitRuns_ne_nil p cs)
      | cons h2 t2 =>
        rw [splitRuns_nonsep (Bool.of_not_eq_true hp) hs]
        have := ih hcs
        rw [hs] at this
        simpa using this

theorem splitRuns_getLastD_eq_afterLastRun (p : Char → Bool) (l : List Char) :
    (splitRuns p l).getLastD [] = afterLastRun p l := by
  induction l with
  | nil => rfl
  | cons c cs ih =>
    by_cases hany : cs.any p
    · by_cases hp : p c
      · cases cs with
        | nil => simp at hany
        | cons d ds =>
          by_cases hd : p d
          · rw [splitRuns_sep_sep ds hp hd]
            simpa [afterLastRun, hany, hp] using ih
          · rw [splitRuns_sep_nonsep ds hp (Bool.of_not_eq_true hd)]
            rw [List.getLastD_cons]
            have h2 : (splitRuns p (d :: ds)).getLastD [] =
                (splitRuns p (d :: ds)).getLastD [] := rfl
            simpa [afterLastRun, hany, hp] using ih
      · cases hs : splitRuns p cs with
        | nil => exact absurd hs (splitRuns_ne_nil p cs)
        | cons h2 t2 =>
          rw [splitRuns_nonsep (Bool.of_not_eq_true hp) hs]
          rw [List.getLastD_cons]
          have hlen := splitRuns_length_of_any hany
          rw [hs] at hlen
          have ht2 : t2 ≠ [] := by
            intro hteq
            rw [hteq] at hlen
            simp at hlen
          have hssame : t2.getLastD (c :: h2) = t2.getLastD h2 := by
            cases t2 with
            | nil => exact absurd rfl ht2
            | cons x xs => rw [List.getLastD_cons, List.getLastD_cons]
          rw [hssame]
          have h3 : (splitRuns p cs).getLastD [] = afterLastRun p cs := ih
          rw [hs, List.getLastD_cons] at h3
          simpa [afterLastRun, hany, hp] using h3
    · have hanyf : cs.any p = false := Bool.of_not_eq_true hany
      by_cases hp : p c
      · cases cs with
        | nil =>
          rw [splitRuns_sep_nil hp]
          simp [afterLastRun, hp]
        | cons d ds =>
          have hd : p d = false := by
            simp only [List.any_cons, Bool.or_eq_false_iff] at hanyf
            exact hanyf.1
          rw [splitRuns_sep_nonsep ds hp hd, List.getLastD_cons,
            splitRuns_all_nonsep hanyf, List.getLastD_cons]
          simp [afterLastRun, hanyf, hp]
      · rw [splitRuns_nonsep (Bool.of_not_eq_true hp) (splitRuns_all_nonsep hanyf)]
        simp [afterLastRun, hanyf, Bool.of_not_eq_true hp]

theorem splitSingles_headD_eq_takeWhile (p : Char → Bool) (l : List Char) :
    (splitSingles p l).headD [] = l.takeWhile (fun c => !p c) := by
  induction l with
  | nil => rfl
  | cons c cs ih =>
    by_cases hp : p c
    · simp [splitSingles, hp, List.takeWhile_cons]
    · simp only [splitSingles, hp, Bool.false_eq_true, if_false]
      cases hs : splitSingles p cs with
      | nil =>
        rw [hs] at ih
        simp only [List.headD_nil] at ih
        simp [List.takeWhile_cons, Bool.of_not_eq_true hp, ← ih]
      | cons h t =>
        rw [hs] at ih
        simp only [List.headD_cons] at ih
        simp [List.takeWhile_cons, Bool.of_not_eq_true hp, ← ih]

theorem mapME_congr {α β : Type} {f g : α → Except PyErr β} {l : List α}
    (h : ∀ a ∈ l, f a = g a) : mapME f l = mapME g l := by
  induction l with
  | nil => rfl
  | cons a t ih =>
    have ha := h a (List.mem_cons_self a t)
    have ht := ih fun x hx => h x (List.mem_cons_of_mem a hx)
    simp only [mapME, ha, ht]

/-- The token the code extracts from a segment is the token of the amended
wording. -/
theorem PymatgenData.extractToken_eq_amended (na : List Char) :
    PymatgenData.extractToken na = PymatgenData.amendedToken na := by
  unfold PymatgenData.extractToken PymatgenData.amendedToken
  by_cases hcond : pyStrip na ≠ [] ∧ ('+' ∈ pyStrip na ∨ '-' ∈ pyStrip na)
  · rw [if_pos hcond, if_pos hcond, ← filter_getLast?_eq_reverse_find?,
      ← splitRuns_getLastD_eq_afterLastRun (fun c => c == '+' || c == '-') (pyStrip na)]
  · rw [if_neg hcond, if_neg hcond]

/-- The `before/after` loop of the code equals the amended fragment
recursion modulo the threaded accumulator. -/
theorem PymatgenData.buildRestAux_eq_amended (ts : List (List Char)) :
    ∀ (rem : List Char) (acc : List (List Char)),
      PymatgenData.buildRestAux ts rem acc =
        match PymatgenData.amendedFragments ts rem with
        | .error e => .error e
        | .ok l => .ok (acc ++ l) := by
  induction ts with
  | nil => intro rem acc; simp [PymatgenData.buildRestAux, PymatgenData.amendedFragments]
  | cons t ts ih =>
    intro rem acc
    cases hsp : pySplitOnce t rem with
    | none =>
      simp [PymatgenData.buildRestAux, PymatgenData.amendedFragments, hsp]
    | some ba =>
      simp only [PymatgenData.buildRestAux, PymatgenData.amendedFragments, hsp]
      rw [ih ba.2 (acc ++ [ba.1])]
      cases ha : PymatgenData.amendedFragments ts ba.2 with
      | error e => simp
      | ok l => simp

/-- The dict-building loop of the code equals the amended one: the head of
`re.split("\\d", g.strip())` is the leading non-digit run of the stripped
fragment. -/
theorem PymatgenData.buildDictAux_eq_amended (l : List (List Char × List Char)) :
    ∀ d : List (String × Int),
      PymatgenData.buildDictAux l d = PymatgenData.amendedDict l d := by
  induction l with
  | nil => intro d; rfl
  | cons gt rest ih =>
    intro d
    simp only [PymatgenData.buildDictAux, PymatgenData.amendedDict,
      splitSingles_headD_eq_takeWhile]
    cases pyIntOfString gt.2 with
    | none => rfl
    | some n => exact ih _

/-- The two pipeline tails agree on every token list. -/
theorem PymatgenData.tokensToResult_eq_amended (formula : String)
    (toks : List (List Char)) :
    PymatgenData.tokensToResult formula toks =
      PymatgenData.amendedTokensToResult formula toks := by
  cases toks with
  | nil => rfl
  | cons t0 rest =>
    cases hsp : pySplitOnce t0 formula.data with
    | none =>
      simp [PymatgenData.tokensToResult, PymatgenData.amendedTokensToResult,
        PymatgenData.amendedFragments, hsp]
    | some ba =>
      simp only [PymatgenData.tokensToResult, PymatgenData.amendedTokensToResult,
        PymatgenData.amendedFragments, hsp]
      rw [PymatgenData.buildRestAux_eq_amended rest ba.2 [ba.1]]
      cases ha : PymatgenData.amendedFragments rest ba.2 with
      | error e => simp
      | ok l =>
        simp only [List.singleton_append]
        rw [PymatgenData.buildDictAux_eq_amended]

/-- Claim C3 (amended): on every input formula, the parser follows the
amended algorithm: split on letter runs of either case; token = last
nonempty stripped non-digit chunk of the segment plus the stripped text
after the last sign run; plain formula = concatenation of the fragments
before each token (text after the last token discarded); each fragment's
leading non-digit run maps to the signed integer value of its token. -/
theorem C3_parser_algorithm (formula : String) :
    PymatgenData.get_composition_oxidation_state formula =
      PymatgenData.amendedParse formula := by
  unfold PymatgenData.get_composition_oxidation_state PymatgenData.amendedParse
  rw [if_neg (splitRuns_ne_nil Char.isAlpha formula.data),
    mapME_congr (fun na _ => PymatgenData.extractToken_eq_amended na)]
  cases hm : mapME PymatgenData.amendedToken (splitRuns Char.isAlpha formula.data) with
  | error e => rfl
  | ok opts => exact PymatgenData.tokensToResult_eq_amended formula opts.reduceOption

/-- Counterexample for claim C3 as stated: on the formula "Fe2+3O3-2" the
algorithm described by the spec (split on lowercase-letter runs, take the
trailing digit run and the sign character immediately preceding it) keeps
the lowercase split pieces "F"/"2+3O3-2", extracts only the token "-2" and
therefore maps Fe to -2, while the code (case-insensitive split) extracts
"+3" and "-2" and maps Fe to 3 and O to -2. -/
theorem C3_counterexample :
    PymatgenData.specParse "Fe2+3O3-2" = .ok ("Fe2+3O3", [("Fe", -2)]) ∧
    PymatgenData.get_composition_oxidation_state "Fe2+3O3-2" =
      .ok ("Fe2O3", [("Fe", 3), ("O", -2)]) ∧
    PymatgenData.specParse "Fe2+3O3-2" ≠
      PymatgenData.get_composition_oxidation_state "Fe2+3O3-2" := by
  refine ⟨by decide, by decide, by decide⟩

/-! ### PymatgenData.get_property

The external element abstraction (`pymatgen.Element`) is modelled by a
function `getattrEl : element symbol → attribute name → Except Unit (Option
PyVal)`: `.error ()` models `AttributeError` (the attribute does not
exist), `.ok none` models an attribute whose value is Python `None`, and
`.ok (some v)` a present value. -/

/-- A present attribute value of the external element abstraction: either a
numeric value (with its optional `unit` attribute: `none` models a plain
Python number, on which accessing `.unit` raises `AttributeError`), or the
`ionic_radii` dict mapping oxidation state to radius. -/
inductive PyVal where
  | num (q : ℚ) (unit : Option String)
  | radii (m : List (Int × ℚ))
deriving DecidableEq

/-- The attribute names for which the code skips reading `p.unit`. -/
def PymatgenData.unitlessProps : List String :=
  ["X", "Z", "group", "row", "number", "mendeleev_no", "ionic_radii"]

/-- Resolution of one element symbol inside the `get_property` loop: the
`getattr`/`AttributeError` handling (with the printed diagnostic), the
`ionic_radii` special case keyed by the oxidation-state dict, the
`float(p)` conversion, and the `p.unit` read.  Errors carry the list of
diagnostics printed before the exception propagates. -/
def PymatgenData.resolveValue (getattrEl : String → String → Except Unit (Option PyVal))
    (oxidation_states : List (String × Int)) (property_name el_sym : String) :
    Except (List String × PyErr) (Option ℚ) :=
  match getattrEl el_sym property_name with
  | .error _ =>
    .error ([property_name ++ " attribute missing"], PyErr.attributeMissing property_name)
  | .ok none => .ok none
  | .ok (some p) =>
    match (if property_name ∈ ["ionic_radii"] then
        if oxidation_states ≠ [] then
          match List.lookup el_sym oxidation_states with
          | none => .error ([], PyErr.keyError)
          | some ox =>
            match p with
            | PyVal.radii m =>
              match List.lookup ox m with
              | none => .error ([], PyErr.keyError)
              | some r => .ok r
            | PyVal.num _ _ => .error ([], PyErr.typeError)
        else .error ([], PyErr.missingOxidationState property_name)
      else
        match p with
        | PyVal.num q _ => .ok q
        | PyVal.radii _ => .error ([], PyErr.typeError) :
        Except (List String × PyErr) ℚ) with
    | .error e => .error e
    | .ok q =>
      if property_name ∈ PymatgenData.unitlessProps then .ok (some q)
      else
        match p with
        | PyVal.num _ (some _) => .ok (some q)
        | _ => .error ([], PyErr.attributeMissing "unit")

/-- The per-element loop of `PymatgenData.get_property`: resolve each
symbol in order and append its value once per atom
(`for i in range(int(el_amt_dict[el_sym])): eldata.append(property_value)`). -/
def PymatgenData.expand (getattrEl : String → String → Except Unit (Option PyVal))
    (el_amt_dict : List (String × ℚ)) (oxidation_states : List (String × Int))
    (property_name : String) : List String → Except (List String × PyErr) (List (Option ℚ))
  | [] => .ok []
  | s :: rest =>
    match PymatgenData.resolveValue getattrEl oxidation_states property_name s with
    | .error e => .error e
    | .ok v =>
      match PymatgenData.expand getattrEl el_amt_dict oxidation_states property_name rest with
      | .error e => .error e
      | .ok t => .ok (List.replicate (pyInt (amtOf el_amt_dict s)).toNat v ++ t)

/-- Embedding of `PymatgenData.get_property` from the point where the
element→amount dict and the oxidation-state dict are available (the
composition/string preprocessing is the external `Composition` machinery
and `get_composition_oxidation_state`).  Returns the flat per-atom list of
values; an error carries the diagnostics printed before the exception. -/
def PymatgenData.get_property (X : String → ℚ)
    (getattrEl : String → String → Except Unit (Option PyVal))
    (el_amt_dict : List (String × ℚ)) (oxidation_states : List (String × Int))
    (property_name : String) : Except (List String × PyErr) (List (Option ℚ)) :=
  PymatgenData.expand getattrEl el_amt_dict oxidation_states property_name
    (sortedSymbols X el_amt_dict)

/-! ### MagpieData

The table construction `_parse` reads, for each available property, the
property file line by line (line `z` holds the value for atomic number
`z`).  Externals: `symbolOfZ` models `str(Element.from_Z(z))`, `pyFloat`
models Python `float` parsing of a line or token (`none` = `ValueError`),
`ptCount` models `len(_pt_data)` (103 in the bundled data).  `lines[z-1]`
is inside the `try` block but only `ValueError` is caught, so a missing
line raises an uncaught `IndexError`. -/

/-- A stored table value: a scalar, the oxidation-states list, or the
`float("NaN")` fallback stored when a parse fails. -/
inductive TableVal where
  | num (q : ℚ)
  | numList (l : List ℚ)
  | nan
deriving DecidableEq

/-- Parsing of a single line: the oxidation-states property parses a
whitespace-separated list of floats, every other property a single float;
any `ValueError` degrades to `NaN` for that cell. -/
def MagpieData.parseLine (pyFloat : String → Option ℚ) (descriptor_name : String)
    (line : String) : TableVal :=
  if descriptor_name ∈ ["OxidationStates"] then
    match ((splitRuns Char.isWhitespace line.data).filter (fun x => x ≠ [])).mapM
        (fun tok => pyFloat (String.mk tok)) with
    | some qs => .numList qs
    | none => .nan
  else
    match pyFloat line with
    | some q => .num q
    | none => .nan

/-- Inner loop of `_parse` for one property file: for each index `i`
(atomic number `i+1`), read `lines[i]` (uncaught `IndexError` when the file
is short) and store the parsed value under `symbolOfZ (i+1)`. -/
def MagpieData.parseFileAux (pyFloat : String → Option ℚ) (symbolOfZ : Nat → String)
    (descriptor_name : String) (lines : List String) :
    List Nat → List (String × TableVal) → Except PyErr (List (String × TableVal))
  | [], acc => .ok acc
  | i :: is, acc =>
    match lines[i]? with
    | none => .error PyErr.indexError
    | some line =>
      MagpieData.parseFileAux pyFloat symbolOfZ descriptor_name lines is
        (dictUpd (symbolOfZ (i + 1)) (MagpieData.parseLine pyFloat descriptor_name line) acc)

/-- One property file parsed for atomic numbers `1 .. ptCount`. -/
def MagpieData.parseFile (ptCount : Nat) (pyFloat : String → Option ℚ)
    (symbolOfZ : Nat → String) (descriptor_name : String) (lines : List String) :
    Except PyErr (List (String × TableVal)) :=
  MagpieData.parseFileAux pyFloat symbolOfZ descriptor_name lines (List.range ptCount) []

/-- Outer loop of `_parse` over the available property files (name and file
lines, in `available_props` order). -/
def MagpieData.parseAllAux (ptCount : Nat) (pyFloat : String → Option ℚ)
    (symbolOfZ : Nat → String) :
    List (String × List String) → List (String × List (String × TableVal)) →
    Except PyErr (List (String × List (String × TableVal)))
  | [], acc => .ok acc
  | f :: fs, acc =>
    match MagpieData.parseFile ptCount pyFloat symbolOfZ f.1 f.2 with
    | .error e => .error e
    | .ok entries =>
      MagpieData.parseAllAux ptCount pyFloat symbolOfZ fs (dictUpd f.1 entries acc)

/-- Embedding of `MagpieData._parse`: builds
`all_elemental_props : property name → element symbol → value`. -/
def MagpieData._parse (ptCount : Nat) (pyFloat : String → Option ℚ)
    (symbolOfZ : Nat → String) (files : List (String × List String)) :
    Except PyErr (List (String × List (String × TableVal))) :=
  MagpieData.parseAllAux ptCount pyFloat symbolOfZ files []

/-- Expansion loop of `MagpieData.get_property`
(`[self.all_elemental_props[property_name][el] for el in symbols for _ in
range(int(el_amt[el]))]`): the table cell is looked up once per atom, so an
element with a zero atom count never touches the table. -/
def MagpieData.expand (table : String → String → Option TableVal)
    (el_amt : List (String × ℚ)) (property_name : String) :
    List String → Except PyErr (List TableVal)
  | [] => .ok []
  | s :: rest =>
    let n := (pyInt (amtOf el_amt s)).toNat
    if n = 0 then MagpieData.expand table el_amt property_name rest
    else
      match table property_name s with
      | none => .error PyErr.keyError
      | some v =>
        match MagpieData.expand table el_amt property_name rest with
        | .error e => .error e
        | .ok t => .ok (List.replicate n v ++ t)

/-- Embedding of `MagpieData.get_property` from the point where the
element→amount dict is available (`Composition(comp).get_el_amt_dict()` is
external): an unknown property name raises the enumerating `ValueError`,
otherwise the symbols are sorted by electronegativity and expanded. -/
def MagpieData.get_property (X : String → ℚ) (available_props : List String)
    (table : String → String → Option TableVal) (el_amt : List (String × ℚ))
    (property_name : String) : Except PyErr (List TableVal) :=
  if property_name ∈ available_props then
    MagpieData.expand table el_amt property_name (sortedSymbols X el_amt)
  else .error (PyErr.unknownProperty available_props)

/-! ### Shared lemmas about lookups, sorting and expansion -/

theorem lookup_mem {β : Type} {s : String} {d : List (String × β)} {a : β}
    (h : List.lookup s d = some a) : (s, a) ∈ d := by
  induction d with
  | nil => simp [List.lookup] at h
  | cons kv rest ih =>
    obtain ⟨k, v⟩ := kv
    rw [List.lookup] at h
    by_cases he : s = k
    · have hbt : (s == k) = true := beq_iff_eq.mpr he
      simp only [hbt] at h
      cases h
      subst he
      exact List.mem_cons_self _ _
    · have hbf : (s == k) = false := beq_eq_false_iff_ne.mpr he
      simp only [hbf] at h
      exact List.mem_cons_of_mem _ (ih h)

theorem mem_keys_lookup {β : Type} {s : String} {d : List (String × β)}
    (h : s ∈ d.map Prod.fst) : ∃ a, List.lookup s d = some a := by
  induction d with
  | nil => simp at h
  | cons kv rest ih =>
    obtain ⟨k, v⟩ := kv
    by_cases he : s = k
    · refine ⟨v, ?_⟩
      rw [List.lookup]
      have hbt : (s == k) = true := beq_iff_eq.mpr he
      simp only [hbt]
    · have h1 : s ∈ rest.map Prod.fst := by
        rw [List.map_cons] at h
        rcases List.mem_cons.mp h with h2 | h2
        · exact absurd h2 he
        · exact h2
      rcases ih h1 with ⟨a, ha⟩
      refine ⟨a, ?_⟩
      rw [List.lookup]
      have hbf : (s == k) = false := beq_eq_false_iff_ne.mpr he
      simp only [hbf]
      exact ha

/-- Python `int()` truncation agrees with the floor for the nonnegative
amounts of a composition. -/
theorem pyInt_eq_floor {q : ℚ} (h : 0 ≤ q) : pyInt q = ⌊q⌋ := by
  unfold pyInt
  rw [Int.tdiv_eq_ediv (Rat.num_nonneg.mpr h) (Int.ofNat_nonneg q.den), Rat.floor_def]

theorem sortedSymbols_sorted (X : String → ℚ) (d : List (String × ℚ)) :
    List.Sorted (leX X) (sortedSymbols X d) :=
  List.sorted_insertionSort (leX X) (d.map Prod.fst)

theorem sortedSymbols_perm (X : String → ℚ) (d : List (String × ℚ)) :
    List.Perm (sortedSymbols X d) (d.map Prod.fst) :=
  List.perm_insertionSort (leX X) (d.map Prod.fst)

theorem flatMap_congr {α β : Type} {l : List α} {F G : α → List β}
    (h : ∀ a ∈ l, F a = G a) : l.flatMap F = l.flatMap G := by
  induction l with
  | nil => rfl
  | cons a t ih =>
    rw [List.flatMap_cons, List.flatMap_cons, h a (List.mem_cons_self a t),
      ih fun x hx => h x (List.mem_cons_of_mem a hx)]

/-! ### Claim C6: unknown property name on the table source -/

theorem MagpieData.expand_ne_unknownProperty
    (table : String → String → Option TableVal) (el_amt : List (String × ℚ))
    (property_name : String) (syms : List String) :
    ∀ l, MagpieData.expand table el_amt property_name syms ≠
      .error (PyErr.unknownProperty l) := by
  induction syms with
  | nil => intro l h; exact Except.noConfusion h
  | cons s rest ih =>
    intro l h
    rw [MagpieData.expand] at h
    by_cases hn : (pyInt (amtOf el_amt s)).toNat = 0
    · rw [if_pos hn] at h
      exact ih l h
    · rw [if_neg hn] at h
      cases ht : table property_name s with
      | none => rw [ht] at h; simp at h
      | some v =>
        rw [ht] at h
        cases he : MagpieData.expand table el_amt property_name rest with
        | error e => rw [he] at h; cases h; exact ih l he
        | ok t => rw [he] at h; simp at h

/-- Claim C6: requesting a property name outside the available set raises
the `ValueError` whose message enumerates the available names (modelled by
the error carrying the full list), and a property name in the available set
never raises that error. -/
theorem C6_unknown_property (X : String → ℚ) (available_props : List String)
    (table : String → String → Option TableVal) (el_amt : List (String × ℚ))
    (property_name : String) :
    (property_name ∉ available_props →
      MagpieData.get_property X available_props table el_amt property_name =
        .error (PyErr.unknownProperty available_props)) ∧
    (property_name ∈ available_props →
      ∀ l, MagpieData.get_property X available_props table el_amt property_name ≠
        .error (PyErr.unknownProperty l)) := by
  constructor
  · intro hni
    unfold MagpieData.get_property
    rw [if_neg hni]
  · intro hmem l
    unfold MagpieData.get_property
    rw [if_pos hmem]
    exact MagpieData.expand_ne_unknownProperty table el_amt property_name _ l

/-! ### Concrete instances shared by the witnesses -/

/-- Concrete electronegativity assignment: Fe below O. -/
def XC : String → ℚ := fun s => if s = "Fe" then 1 else if s = "O" then 3 else 2

/-- Concrete composition dict of Fe2O3. -/
def elAmtC : List (String × ℚ) := [("Fe", 2), ("O", 3)]

/-- Concrete table with one property. -/
def tableC : String → String → Option TableVal := fun name el =>
  if name = "AtomicWeight" then
    if el = "Fe" then some (TableVal.num 56)
    else if el = "O" then some (TableVal.num 16)
    else none
  else none

/-- Witness for C6: both directions at a concrete table source. -/
theorem C6_unknown_property_witness :
    MagpieData.get_property XC ["AtomicWeight"] tableC elAmtC "Foo" =
      .error (PyErr.unknownProperty ["AtomicWeight"]) ∧
    MagpieData.get_property XC ["AtomicWeight"] tableC elAmtC "AtomicWeight" ≠
      .error (PyErr.unknownProperty ["AtomicWeight"]) :=
  ⟨(C6_unknown_property XC ["AtomicWeight"] tableC elAmtC "Foo").1 (by decide),
   (C6_unknown_property XC ["AtomicWeight"] tableC elAmtC "AtomicWeight").2
     (by decide) ["AtomicWeight"]⟩

/-! ### Claim C8: missing attribute on the live source -/

/-- Claim C8: when the element abstraction does not expose the requested
attribute, the diagnostic naming the attribute is printed and the
`AttributeError` is re-raised. -/
theorem C8_missing_attribute (X : String → ℚ)
    (getattrEl : String → String → Except Unit (Option PyVal))
    (el_amt_dict : List (String × ℚ)) (oxidation_states : List (String × Int))
    (property_name : String) (hne : el_amt_dict ≠ [])
    (h : ∀ s, getattrEl s property_name = .error ()) :
    PymatgenData.get_property X getattrEl el_amt_dict oxidation_states property_name =
      .error ([property_name ++ " attribute missing"],
        PyErr.attributeMissing property_name) := by
  unfold PymatgenData.get_property
  have hsne : sortedSymbols X el_amt_dict ≠ [] := by
    intro heq
    have hperm := sortedSymbols_perm X el_amt_dict
    rw [heq] at hperm
    have hmap := hperm.symm.eq_nil
    rcases el_amt_dict with - | ⟨kv, rest⟩
    · exact hne rfl
    · simp at hmap
  cases hs : sortedSymbols X el_amt_dict with
  | nil => exact absurd hs hsne
  | cons s rest =>
    simp [PymatgenData.expand, PymatgenData.resolveValue, h s]

/-- Concrete element abstraction exposing no attribute at all. -/
def gElErr : String → String → Except Unit (Option PyVal) := fun _ _ => .error ()

/-- Witness for C8. -/
theorem C8_missing_attribute_witness :
    PymatgenData.get_property XC gElErr elAmtC [] "electron_affinity" =
      .error (["electron_affinity attribute missing"],
        PyErr.attributeMissing "electron_affinity") :=
  C8_missing_attribute XC gElErr elAmtC [] "electron_affinity" (by decide)
    (fun _ => rfl)

/-! ### Claim C5: ionic radii and oxidation states

The code guards the `ionic_radii` branch with `if oxidation_states:` —
truthiness of the whole dict — and then evaluates
`oxidation_states[el_sym]`.  An element absent from a nonempty dict
therefore fails with `KeyError`, not with the missing-oxidation-state
`ValueError`; the latter is raised only when the dict is entirely empty. -/

/-- Concrete element abstraction exposing only `ionic_radii`. -/
def gElC5 : String → String → Except Unit (Option PyVal) := fun el name =>
  if name = "ionic_radii" then
    .ok (some (PyVal.radii (if el = "Fe" then [(3, 1)] else [(-2, 2)])))
  else .ok none

/-- Counterexample for claim C5 as stated: for composition Fe2O3 with a
nonempty oxidation-state map that lacks O, no oxidation state is available
for O, yet the call fails with `KeyError` rather than the
missing-oxidation-state `ValueError`. -/
theorem C5_counterexample :
    PymatgenData.get_property XC gElC5 elAmtC [("Fe", 3)] "ionic_radii" =
      .error ([], PyErr.keyError) ∧
    PyErr.keyError ≠ PyErr.missingOxidationState "ionic_radii" :=
  ⟨by decide, by decide⟩

/-- Claim C5 (amended): when the live-attribute source is asked for
`ionic_radii` and the attribute value is present for an element: if the
oxidation-state map is empty the call fails with the
missing-oxidation-state `ValueError`; if the map is nonempty but has no
entry for the element, resolution fails with `KeyError`; otherwise the
value returned for that element is its ionic radius keyed by that
element's oxidation state. -/
theorem C5_ionic_radii (X : String → ℚ)
    (getattrEl : String → String → Except Unit (Option PyVal))
    (oxidation_states : List (String × Int)) (el_sym : String) (p : PyVal)
    (hp : getattrEl el_sym "ionic_radii" = .ok (some p)) :
    (oxidation_states = [] →
      PymatgenData.resolveValue getattrEl oxidation_states "ionic_radii" el_sym =
        .error ([], PyErr.missingOxidationState "ionic_radii")) ∧
    (oxidation_states ≠ [] → List.lookup el_sym oxidation_states = none →
      PymatgenData.resolveValue getattrEl oxidation_states "ionic_radii" el_sym =
        .error ([], PyErr.keyError)) ∧
    (∀ ox m r, List.lookup el_sym oxidation_states = some ox → p = PyVal.radii m →
      List.lookup ox m = some r →
      PymatgenData.resolveValue getattrEl oxidation_states "ionic_radii" el_sym =
        .ok (some r)) ∧
    (∀ a : ℚ, oxidation_states = [] →
      PymatgenData.get_property X getattrEl [(el_sym, a)] oxidation_states "ionic_radii" =
        .error ([], PyErr.missingOxidationState "ionic_radii")) := by
  have hresolve_empty : oxidation_states = [] →
      PymatgenData.resolveValue getattrEl oxidation_states "ionic_radii" el_sym =
        .error ([], PyErr.missingOxidationState "ionic_radii") := by
    intro hoe
    subst hoe
    simp [PymatgenData.resolveValue, hp]
  refine ⟨hresolve_empty, ?_, ?_, ?_⟩
  · intro hne hlk
    simp [PymatgenData.resolveValue, hp, hne, hlk]
  · intro ox m r hlk hpm hrm
    subst hpm
    have hne : oxidation_states ≠ [] := by
      intro hoe
      rw [hoe] at hlk
      simp [List.lookup] at hlk
    simp [PymatgenData.resolveValue, hp, hne, hlk, hrm, PymatgenData.unitlessProps]
  · intro a hoe
    unfold PymatgenData.get_property
    have hss : sortedSymbols X [(el_sym, a)] = [el_sym] := rfl
    rw [hss]
    rw [PymatgenData.expand, hresolve_empty hoe]

/-- Witness for the amended C5 at concrete inputs: all three behaviours. -/
theorem C5_ionic_radii_witness :
    PymatgenData.resolveValue gElC5 [] "ionic_radii" "O" =
      .error ([], PyErr.missingOxidationState "ionic_radii") ∧
    PymatgenData.resolveValue gElC5 [("Fe", 3)] "ionic_radii" "O" =
      .error ([], PyErr.keyError) ∧
    PymatgenData.resolveValue gElC5 [("Fe", 3)] "ionic_radii" "Fe" =
      .ok (some 1) ∧
    PymatgenData.get_property XC gElC5 [("O", 3)] [] "ionic_radii" =
      .error ([], PyErr.missingOxidationState "ionic_radii") :=
  ⟨(C5_ionic_radii XC gElC5 [] "O" (PyVal.radii [(-2, 2)]) (by decide)).1 rfl,
   (C5_ionic_radii XC gElC5 [("Fe", 3)] "O" (PyVal.radii [(-2, 2)]) (by decide)).2.1
     (by decide) (by decide),
   (C5_ionic_radii XC gElC5 [("Fe", 3)] "Fe" (PyVal.radii [(3, 1)]) (by decide)).2.2.1
     3 [(3, 1)] 1 (by decide) rfl (by decide),
   (C5_ionic_radii XC gElC5 [] "O" (PyVal.radii [(-2, 2)]) (by decide)).2.2.2 3 rfl⟩

/-! ### Expansion lemmas for C1 and C9 -/

/-- When every symbol resolves without error, the live-source loop returns
the flat concatenation of per-element blocks. -/
theorem PymatgenData.expand_all_ok
    (getattrEl : String → String → Except Unit (Option PyVal))
    (el_amt_dict : List (String × ℚ)) (oxidation_states : List (String × Int))
    (property_name : String) (w : String → Option ℚ) :
    ∀ syms : List String,
      (∀ s ∈ syms, PymatgenData.resolveValue getattrEl oxidation_states property_name s =
        .ok (w s)) →
      PymatgenData.expand getattrEl el_amt_dict oxidation_states property_name syms =
        .ok (syms.flatMap
          (fun s => List.replicate (pyInt (amtOf el_amt_dict s)).toNat (w s))) := by
  intro syms
  induction syms with
  | nil => intro _; rfl
  | cons s rest ih =>
    intro h
    rw [PymatgenData.expand, h s (List.mem_cons_self s rest),
      ih fun x hx => h x (List.mem_cons_of_mem s hx), List.flatMap_cons]

/-- A successful run of the live-source loop has the block shape: some
per-element resolved value is repeated `int(amount)` times for each symbol
in order. -/
theorem PymatgenData.expand_ok_shape
    (getattrEl : String → String → Except Unit (Option PyVal))
    (el_amt_dict : List (String × ℚ)) (oxidation_states : List (String × Int))
    (property_name : String) :
    ∀ (syms : List String) (l : List (Option ℚ)), syms.Nodup →
      PymatgenData.expand getattrEl el_amt_dict oxidation_states property_name syms =
        .ok l →
      ∃ g : String → Option ℚ,
        l = syms.flatMap
          (fun s => List.replicate (pyInt (amtOf el_amt_dict s)).toNat (g s)) := by
  intro syms
  induction syms with
  | nil =>
    intro l _ hl
    rw [PymatgenData.expand] at hl
    cases hl
    exact ⟨fun _ => none, rfl⟩
  | cons s rest ih =>
    intro l hnd hl
    have hnds : s ∉ rest := (List.nodup_cons.mp hnd).1
    have hndr : rest.Nodup := (List.nodup_cons.mp hnd).2
    rw [PymatgenData.expand] at hl
    cases hv : PymatgenData.resolveValue getattrEl oxidation_states property_name s with
    | error e => rw [hv] at hl; exact Except.noConfusion hl
    | ok v =>
      rw [hv] at hl
      cases ht : PymatgenData.expand getattrEl el_amt_dict oxidation_states
          property_name rest with
      | error e => rw [ht] at hl; exact Except.noConfusion hl
      | ok t =>
        rw [ht] at hl
        cases hl
        rcases ih t hndr ht with ⟨g, hg⟩
        refine ⟨fun u => if u = s then v else g u, ?_⟩
        rw [List.flatMap_cons, hg]
        congr 1
        · simp
        · exact flatMap_congr fun u hu => by
            have hus : u ≠ s := fun heq => hnds (heq ▸ hu)
            simp [hus]

/-- A successful run of the table-source loop has the same block shape. -/
theorem MagpieData.expand_table_ok_shape
    (table : String → String → Option TableVal) (el_amt : List (String × ℚ))
    (property_name : String) :
    ∀ (syms : List String) (l : List TableVal), syms.Nodup →
      MagpieData.expand table el_amt property_name syms = .ok l →
      ∃ f : String → TableVal,
        l = syms.flatMap
          (fun s => List.replicate (pyInt (amtOf el_amt s)).toNat (f s)) := by
  intro syms
  induction syms with
  | nil =>
    intro l _ hl
    rw [MagpieData.expand] at hl
    cases hl
    exact ⟨fun _ => TableVal.nan, rfl⟩
  | cons s rest ih =>
    intro l hnd hl
    have hnds : s ∉ rest := by
      rw [List.nodup_cons] at hnd
      exact hnd.1
    have hndr : rest.Nodup := by
      rw [List.nodup_cons] at hnd
      exact hnd.2
    rw [MagpieData.expand] at hl
    by_cases hn : (pyInt (amtOf el_amt s)).toNat = 0
    · rw [if_pos hn] at hl
      rcases ih l hndr hl with ⟨f, hf⟩
      refine ⟨f, ?_⟩
      rw [List.flatMap_cons, hn, List.replicate_zero, List.nil_append]
      exact hf
    · rw [if_neg hn] at hl
      cases hv : table property_name s with
      | none => rw [hv] at hl; exact Except.noConfusion hl
      | some v =>
        rw [hv] at hl
        cases ht : MagpieData.expand table el_amt property_name rest with
        | error e => rw [ht] at hl; exact Except.noConfusion hl
        | ok t =>
          rw [ht] at hl
          cases hl
          rcases ih t hndr ht with ⟨f, hf⟩
          refine ⟨fun u => if u = s then v else f u, ?_⟩
          rw [List.flatMap_cons, hf]
          congr 1
          · simp
          · exact flatMap_congr fun u hu => by
              have hus : u ≠ s := fun heq => hnds (heq ▸ hu)
              simp [hus]

/-! ### Claim C9: None attribute values pass through silently -/

/-- Claim C9: when the element abstraction exposes the attribute but its
value for some element is Python `None` (and the property is not
`ionic_radii`), the live source raises no error and the entry appended for
each atom of that element is `None`, so the result is not a list of
floats. -/
theorem C9_none_attribute_value (X : String → ℚ)
    (getattrEl : String → String → Except Unit (Option PyVal))
    (el_amt_dict : List (String × ℚ)) (oxidation_states : List (String × Int))
    (property_name : String) (w : String → Option ℚ) (el : String)
    (hname : property_name ≠ "ionic_radii")
    (hres : ∀ s ∈ el_amt_dict.map Prod.fst,
      PymatgenData.resolveValue getattrEl oxidation_states property_name s = .ok (w s))
    (hnone : getattrEl el property_name = .ok none)
    (hel : el ∈ el_amt_dict.map Prod.fst)
    (hamt : 1 ≤ (pyInt (amtOf el_amt_dict el)).toNat) :
    PymatgenData.get_property X getattrEl el_amt_dict oxidation_states property_name =
      .ok ((sortedSymbols X el_amt_dict).flatMap
        (fun s => List.replicate (pyInt (amtOf el_amt_dict s)).toNat (w s))) ∧
    none ∈ (sortedSymbols X el_amt_dict).flatMap
      (fun s => List.replicate (pyInt (amtOf el_amt_dict s)).toNat (w s)) := by
  have hwel : w el = none := by
    have h1 := hres el hel
    have h2 : PymatgenData.resolveValue getattrEl oxidation_states property_name el =
        .ok none := by
      unfold PymatgenData.resolveValue
      rw [hnone]
    rw [h2] at h1
    exact (Except.ok.injEq _ _ ▸ h1.symm)
  constructor
  · unfold PymatgenData.get_property
    exact PymatgenData.expand_all_ok getattrEl el_amt_dict oxidation_states
      property_name w _
      (fun s hs => hres s ((sortedSymbols_perm X el_amt_dict).mem_iff.mp hs))
  · refine List.mem_flatMap.mpr ⟨el,
      (sortedSymbols_perm X el_amt_dict).mem_iff.mpr hel, ?_⟩
    rw [hwel]
    exact List.mem_replicate.mpr ⟨by omega, rfl⟩

/-- Concrete element abstraction whose attribute values are all `None`. -/
def gElNone : String → String → Except Unit (Option PyVal) := fun _ _ => .ok none

/-- Witness for C9 at a concrete instance. -/
theorem C9_none_attribute_value_witness :
    PymatgenData.get_property XC gElNone elAmtC [] "electron_affinity" =
      .ok ((sortedSymbols XC elAmtC).flatMap
        (fun s => List.replicate (pyInt (amtOf elAmtC s)).toNat none)) ∧
    none ∈ (sortedSymbols XC elAmtC).flatMap
      (fun s => List.replicate (pyInt (amtOf elAmtC s)).toNat (none : Option ℚ)) :=
  C9_none_attribute_value XC gElNone elAmtC [] "electron_affinity"
    (fun _ => none) "Fe" (by decide) (by decide) rfl (by decide) (by decide)

/-! ### Claim C1: ordering and expansion on both sources -/

/-- Claim C1: on both sources, the flat result concatenates, over the
element symbols sorted by ascending electronegativity, one block per
element repeating its resolved value `int(amount)` (= floor, amounts being
nonnegative) times. -/
theorem C1_expansion_ordering (X : String → ℚ) (available_props : List String)
    (table : String → String → Option TableVal)
    (getattrEl : String → String → Except Unit (Option PyVal))
    (el_amt : List (String × ℚ)) (oxidation_states : List (String × Int))
    (nameM nameP : String)
    (hnodup : (el_amt.map Prod.fst).Nodup)
    (hamt : ∀ p ∈ el_amt, 0 ≤ p.2) :
    List.Sorted (leX X) (sortedSymbols X el_amt) ∧
    List.Perm (sortedSymbols X el_amt) (el_amt.map Prod.fst) ∧
    (∀ l, MagpieData.get_property X available_props table el_amt nameM = .ok l →
      ∃ f : String → TableVal,
        l = (sortedSymbols X el_amt).flatMap
          (fun s => List.replicate (Int.toNat ⌊amtOf el_amt s⌋) (f s))) ∧
    (∀ l, PymatgenData.get_property X getattrEl el_amt oxidation_states nameP = .ok l →
      ∃ g : String → Option ℚ,
        l = (sortedSymbols X el_amt).flatMap
          (fun s => List.replicate (Int.toNat ⌊amtOf el_amt s⌋) (g s))) := by
  have hnodup2 : (sortedSymbols X el_amt).Nodup :=
    ((sortedSymbols_perm X el_amt).nodup_iff).mpr hnodup
  have hnn : ∀ s ∈ sortedSymbols X el_amt, 0 ≤ amtOf el_amt s := by
    intro s hs
    have hk : s ∈ el_amt.map Prod.fst := (sortedSymbols_perm X el_amt).mem_iff.mp hs
    rcases mem_keys_lookup hk with ⟨a, ha⟩
    have hge := hamt (s, a) (lookup_mem ha)
    rw [amtOf, ha]
    exact hge
  refine ⟨sortedSymbols_sorted X el_amt, sortedSymbols_perm X el_amt, ?_, ?_⟩
  · intro l hok
    unfold MagpieData.get_property at hok
    by_cases hmem : nameM ∈ available_props
    · rw [if_pos hmem] at hok
      rcases MagpieData.expand_table_ok_shape table el_amt nameM _ l hnodup2 hok with ⟨f, hf⟩
      refine ⟨f, ?_⟩
      rw [hf]
      exact flatMap_congr fun s hs => by rw [pyInt_eq_floor (hnn s hs)]
    · rw [if_neg hmem] at hok
      exact Except.noConfusion hok
  · intro l hok
    unfold PymatgenData.get_property at hok
    rcases PymatgenData.expand_ok_shape getattrEl el_amt oxidation_states nameP _ l
      hnodup2 hok with ⟨g, hg⟩
    refine ⟨g, ?_⟩
    rw [hg]
    exact flatMap_congr fun s hs => by rw [pyInt_eq_floor (hnn s hs)]

/-- Witness for C1 at the Fe2O3 composition on the table source: the
result is the 5-element sequence with both Fe values (lower
electronegativity) before the three O values. -/
theorem C1_expansion_ordering_witness :
    MagpieData.get_property XC ["AtomicWeight"] tableC elAmtC "AtomicWeight" =
      .ok [TableVal.num 56, TableVal.num 56,
           TableVal.num 16, TableVal.num 16, TableVal.num 16] ∧
    List.Sorted (leX XC) (sortedSymbols XC elAmtC) ∧
    List.Perm (sortedSymbols XC elAmtC) (elAmtC.map Prod.fst) ∧
    (∃ f : String → TableVal,
      [TableVal.num 56, TableVal.num 56,
       TableVal.num 16, TableVal.num 16, TableVal.num 16] =
        (sortedSymbols XC elAmtC).flatMap
          (fun s => List.replicate (Int.toNat ⌊amtOf elAmtC s⌋) (f s))) :=
  ⟨by decide,
   (C1_expansion_ordering XC ["AtomicWeight"] tableC gElNone elAmtC [] "AtomicWeight"
      "X" (by decide) (by decide)).1,
   (C1_expansion_ordering XC ["AtomicWeight"] tableC gElNone elAmtC [] "AtomicWeight"
      "X" (by decide) (by decide)).2.1,
   (C1_expansion_ordering XC ["AtomicWeight"] tableC gElNone elAmtC [] "AtomicWeight"
      "X" (by decide) (by decide)).2.2.1 _ (by decide)⟩

/-! ### Claims C7 and C10: table construction -/

theorem dictUpd_fresh {β : Type} {k : String} {d : List (String × β)} (v : β)
    (h : ∀ kv ∈ d, kv.1 ≠ k) : dictUpd k v d = d ++ [(k, v)] := by
  induction d with
  | nil => rfl
  | cons kv rest ih =>
    rw [dictUpd, if_neg (h kv (List.mem_cons_self kv rest)), List.cons_append]
    rw [ih fun x hx => h x (List.mem_cons_of_mem kv hx)]

/-- Distinct mapped keys identify elements of a list. -/
theorem key_injOn_of_nodup_map {γ κ : Type} {key : γ → κ} {l : List γ}
    (hnd : (l.map key).Nodup) :
    ∀ x ∈ l, ∀ y ∈ l, key y = key x → y = x := by
  induction l with
  | nil => intro x hx; simp at hx
  | cons a t ih =>
    rw [List.map_cons, List.nodup_cons] at hnd
    intro x hx y hy hk
    rcases List.mem_cons.mp hx with hx1 | hx1
    · rcases List.mem_cons.mp hy with hy1 | hy1
      · rw [hx1, hy1]
      · exfalso
        apply hnd.1
        have hka : key a = key y := by rw [hk, hx1]
        rw [hka]
        exact List.mem_map_of_mem key hy1
    · rcases List.mem_cons.mp hy with hy1 | hy1
      · exfalso
        apply hnd.1
        have hka : key a = key x := by rw [← hk, hy1]
        rw [hka]
        exact List.mem_map_of_mem key hx1
      · exact ih hnd.2 x hx1 y hy1 hk

/-- Lookup of a mapped association list built from elements with distinct
keys. -/
theorem lookup_map_assoc {γ β : Type} (key : γ → String) (val : γ → β) :
    ∀ (l : List γ) (x : γ), x ∈ l → (∀ y ∈ l, key y = key x → y = x) →
      List.lookup (key x) (l.map (fun y => (key y, val y))) = some (val x) := by
  intro l
  induction l with
  | nil => intro x hx; simp at hx
  | cons a t ih =>
    intro x hx hinj
    rw [List.map_cons, List.lookup]
    rcases List.mem_cons.mp hx with hx1 | hx1
    · have hbt : (key x == key a) = true := beq_iff_eq.mpr (by rw [hx1])
      simp only [hbt]
      rw [hx1]
    · by_cases hka : key a = key x
      · have : a = x := hinj a (List.mem_cons_self a t) hka
        have hbt : (key x == key a) = true := beq_iff_eq.mpr hka.symm
        simp only [hbt]
        rw [this]
      · have hbf : (key x == key a) = false :=
          beq_eq_false_iff_ne.mpr (fun heq => hka heq.symm)
        simp only [hbf]
        exact ih x hx1 fun y hy hk => hinj y (List.mem_cons_of_mem a hy) hk

/-- The per-file loop succeeds on an in-bounds index list and appends one
entry per index, in order. -/
theorem MagpieData.parseFileAux_ok (pyFloat : String → Option ℚ)
    (symbolOfZ : Nat → String) (descriptor_name : String) (lines : List String) :
    ∀ (idx : List Nat) (acc : List (String × TableVal)),
      (∀ i ∈ idx, i < lines.length) →
      (∀ i ∈ idx, ∀ kv ∈ acc, kv.1 ≠ symbolOfZ (i + 1)) →
      (∀ i ∈ idx, ∀ j ∈ idx, symbolOfZ (i + 1) = symbolOfZ (j + 1) → i = j) →
      idx.Nodup →
      MagpieData.parseFileAux pyFloat symbolOfZ descriptor_name lines idx acc =
        .ok (acc ++ idx.map (fun i => (symbolOfZ (i + 1),
          MagpieData.parseLine pyFloat descriptor_name (lines.getD i "")))) := by
  intro idx
  induction idx with
  | nil => intro acc _ _ _ _; simp [MagpieData.parseFileAux]
  | cons i is ih =>
    intro acc hlen hfresh hinj hnd
    have hi : i < lines.length := hlen i (List.mem_cons_self i is)
    have hgd : lines[i] = lines.getD i "" := (List.getD_eq_getElem lines "" hi).symm
    rw [MagpieData.parseFileAux, List.getElem?_eq_getElem hi, hgd]
    show MagpieData.parseFileAux pyFloat symbolOfZ descriptor_name lines is
        (dictUpd (symbolOfZ (i + 1))
          (MagpieData.parseLine pyFloat descriptor_name (lines.getD i "")) acc) = _
    rw [dictUpd_fresh _ (hfresh i (List.mem_cons_self i is))]
    rw [ih (acc ++ [(symbolOfZ (i + 1),
        MagpieData.parseLine pyFloat descriptor_name (lines.getD i ""))])
      (fun j hj => hlen j (List.mem_cons_of_mem i hj))
      (fun j hj kv hkv => by
        rcases List.mem_append.mp hkv with hkv1 | hkv1
        · exact hfresh j (List.mem_cons_of_mem i hj) kv hkv1
        · rw [List.mem_singleton] at hkv1
          subst hkv1
          intro heq
          have := hinj i (List.mem_cons_self i is) j (List.mem_cons_of_mem i hj) heq
          exact (List.nodup_cons.mp hnd).1 (this ▸ hj)
      )
      (fun a ha b hb => hinj a (List.mem_cons_of_mem i ha) b (List.mem_cons_of_mem i hb))
      (List.nodup_cons.mp hnd).2]
    rw [List.map_cons, List.append_assoc, List.singleton_append]

/-- The per-file loop fails with `IndexError` as soon as some index is out
of bounds. -/
theorem MagpieData.parseFileAux_short (pyFloat : String → Option ℚ)
    (symbolOfZ : Nat → String) (descriptor_name : String) (lines : List String) :
    ∀ (idx : List Nat) (acc : List (String × TableVal)),
      (∃ i ∈ idx, lines.length ≤ i) →
      MagpieData.parseFileAux pyFloat symbolOfZ descriptor_name lines idx acc =
        .error PyErr.indexError := by
  intro idx
  induction idx with
  | nil => intro acc h; simp at h
  | cons i is ih =>
    intro acc h
    by_cases hi : lines.length ≤ i
    · rw [MagpieData.parseFileAux, List.getElem?_eq_none hi]
    · rcases h with ⟨j, hj, hjlen⟩
      have hji : j ≠ i := fun heq => hi (heq ▸ hjlen)
      have hjis : j ∈ is := by
        rcases List.mem_cons.mp hj with h1 | h1
        · exact absurd h1 hji
        · exact h1
      have hilt : i < lines.length := Nat.lt_of_not_le hi
      rw [MagpieData.parseFileAux, List.getElem?_eq_getElem hilt]
      exact ih _ ⟨j, hjis, hjlen⟩

/-- The per-file loop always succeeds on in-bounds indices (value
unspecified). -/
theorem MagpieData.parseFileAux_ok_exists (pyFloat : String → Option ℚ)
    (symbolOfZ : Nat → String) (descriptor_name : String) (lines : List String) :
    ∀ (idx : List Nat) (acc : List (String × TableVal)),
      (∀ i ∈ idx, i < lines.length) →
      ∃ res, MagpieData.parseFileAux pyFloat symbolOfZ descriptor_name lines idx acc =
        .ok res := by
  intro idx
  induction idx with
  | nil => intro acc _; exact ⟨acc, rfl⟩
  | cons i is ih =>
    intro acc hlen
    have hi : i < lines.length := hlen i (List.mem_cons_self i is)
    rw [MagpieData.parseFileAux, List.getElem?_eq_getElem hi]
    exact ih _ fun j hj => hlen j (List.mem_cons_of_mem i hj)

/-- A property file with at least `ptCount` lines parses into one entry per
atomic number, in order. -/
theorem MagpieData.parseFile_ok (ptCount : Nat) (pyFloat : String → Option ℚ)
    (symbolOfZ : Nat → String) (descriptor_name : String) (lines : List String)
    (hlen : ptCount ≤ lines.length)
    (hinj : ∀ i, i < ptCount → ∀ j, j < ptCount →
      symbolOfZ (i + 1) = symbolOfZ (j + 1) → i = j) :
    MagpieData.parseFile ptCount pyFloat symbolOfZ descriptor_name lines =
      .ok ((List.range ptCount).map (fun i => (symbolOfZ (i + 1),
        MagpieData.parseLine pyFloat descriptor_name (lines.getD i "")))) := by
  unfold MagpieData.parseFile
  rw [MagpieData.parseFileAux_ok pyFloat symbolOfZ descriptor_name lines
    (List.range ptCount) []
    (fun i hi => lt_of_lt_of_le (List.mem_range.mp hi) hlen)
    (fun i _ kv hkv => absurd hkv (List.not_mem_nil kv))
    (fun i hi j hj => hinj i (List.mem_range.mp hi) j (List.mem_range.mp hj))
    (List.nodup_range ptCount)]
  rw [List.nil_append]

/-- The outer loop of `_parse` succeeds on long-enough files and appends
one table per file, in order. -/
theorem MagpieData.parseAllAux_ok (ptCount : Nat) (pyFloat : String → Option ℚ)
    (symbolOfZ : Nat → String)
    (hinj : ∀ i, i < ptCount → ∀ j, j < ptCount →
      symbolOfZ (i + 1) = symbolOfZ (j + 1) → i = j) :
    ∀ (files : List (String × List String))
      (acc : List (String × List (String × TableVal))),
      (∀ f ∈ files, ptCount ≤ f.2.length) →
      (∀ f ∈ files, ∀ kv ∈ acc, kv.1 ≠ f.1) →
      (files.map Prod.fst).Nodup →
      MagpieData.parseAllAux ptCount pyFloat symbolOfZ files acc =
        .ok (acc ++ files.map (fun f => (f.1, (List.range ptCount).map
          (fun i => (symbolOfZ (i + 1),
            MagpieData.parseLine pyFloat f.1 (f.2.getD i "")))))) := by
  intro files
  induction files with
  | nil => intro acc _ _ _; simp [MagpieData.parseAllAux]
  | cons f fs ih =>
    intro acc hlen hfresh hnd
    rw [List.map_cons, List.nodup_cons] at hnd
    rw [MagpieData.parseAllAux,
      MagpieData.parseFile_ok ptCount pyFloat symbolOfZ f.1 f.2
        (hlen f (List.mem_cons_self f fs)) hinj]
    show MagpieData.parseAllAux ptCount pyFloat symbolOfZ fs
        (dictUpd f.1 ((List.range ptCount).map (fun i => (symbolOfZ (i + 1),
          MagpieData.parseLine pyFloat f.1 (f.2.getD i "")))) acc) = _
    rw [dictUpd_fresh _ (hfresh f (List.mem_cons_self f fs))]
    rw [ih _ (fun g hg => hlen g (List.mem_cons_of_mem f hg))
      (fun g hg kv hkv => by
        rcases List.mem_append.mp hkv with hkv1 | hkv1
        · exact hfresh g (List.mem_cons_of_mem f hg) kv hkv1
        · rw [List.mem_singleton] at hkv1
          subst hkv1
          intro heq
          exact hnd.1 (heq ▸ List.mem_map_of_mem Prod.fst hg))
      hnd.2]
    rw [List.map_cons, List.append_assoc, List.singleton_append]

/-- Claim C7: with every available property file holding a line for every
atomic number, table construction succeeds; every file yields an entry for
every element, and a cell whose float parse fails holds `NaN` (for the
scalar properties; the oxidation-states file treats whole lines).  Parse
failures never abort construction. -/
theorem C7_nan_degradation (ptCount : Nat) (pyFloat : String → Option ℚ)
    (symbolOfZ : Nat → String) (files : List (String × List String))
    (hlen : ∀ f ∈ files, ptCount ≤ f.2.length)
    (hnames : (files.map Prod.fst).Nodup)
    (hinj : ∀ i, i < ptCount → ∀ j, j < ptCount →
      symbolOfZ (i + 1) = symbolOfZ (j + 1) → i = j) :
    ∃ tbl, MagpieData._parse ptCount pyFloat symbolOfZ files = .ok tbl ∧
      ∀ name lines, (name, lines) ∈ files →
        ∃ entries, List.lookup name tbl = some entries ∧
          ∀ z, 1 ≤ z → z ≤ ptCount →
            List.lookup (symbolOfZ z) entries =
              some (MagpieData.parseLine pyFloat name (lines.getD (z - 1) "")) ∧
            (pyFloat (lines.getD (z - 1) "") = none → name ∉ ["OxidationStates"] →
              List.lookup (symbolOfZ z) entries = some TableVal.nan) := by
  refine ⟨files.map (fun f => (f.1, (List.range ptCount).map
      (fun i => (symbolOfZ (i + 1),
        MagpieData.parseLine pyFloat f.1 (f.2.getD i ""))))), ?_, ?_⟩
  · unfold MagpieData._parse
    rw [MagpieData.parseAllAux_ok ptCount pyFloat symbolOfZ hinj files [] hlen
      (fun f _ kv hkv => absurd hkv (List.not_mem_nil kv)) hnames]
    rw [List.nil_append]
  · intro name lines hmem
    refine ⟨(List.range ptCount).map (fun i => (symbolOfZ (i + 1),
      MagpieData.parseLine pyFloat name (lines.getD i ""))), ?_, ?_⟩
    · have hlk := lookup_map_assoc
        (fun f : String × List String => f.1)
        (fun f : String × List String => (List.range ptCount).map
          (fun i => (symbolOfZ (i + 1),
            MagpieData.parseLine pyFloat f.1 (f.2.getD i ""))))
        files (name, lines) hmem
        (fun y hy hk => key_injOn_of_nodup_map hnames (name, lines) hmem y hy hk)
      exact hlk
    · intro z hz1 hz2
      have hzr : z - 1 ∈ List.range ptCount := List.mem_range.mpr (by omega)
      have hzs : symbolOfZ ((z - 1) + 1) = symbolOfZ z := by
        congr 1
        omega
      have hlk := lookup_map_assoc
        (fun i : Nat => symbolOfZ (i + 1))
        (fun i : Nat => MagpieData.parseLine pyFloat name (lines.getD i ""))
        (List.range ptCount) (z - 1) hzr
        (fun j hj hk => hinj j (List.mem_range.mp hj) (z - 1) (List.mem_range.mp hzr) hk)
      have hlk2 : List.lookup (symbolOfZ ((z - 1) + 1))
          ((List.range ptCount).map (fun i => (symbolOfZ (i + 1),
            MagpieData.parseLine pyFloat name (lines.getD i "")))) =
          some (MagpieData.parseLine pyFloat name (lines.getD (z - 1) "")) := hlk
      rw [hzs] at hlk2
      refine ⟨hlk2, fun hpf hnm => ?_⟩
      rw [hlk2]
      have : MagpieData.parseLine pyFloat name (lines.getD (z - 1) "") = TableVal.nan := by
        unfold MagpieData.parseLine
        rw [if_neg hnm, hpf]
      rw [this]

/-- The outer loop of `_parse` fails with `IndexError` as soon as some file
is shorter than the index range. -/
theorem MagpieData.parseAllAux_short (ptCount : Nat) (pyFloat : String → Option ℚ)
    (symbolOfZ : Nat → String) :
    ∀ (files : List (String × List String))
      (acc : List (String × List (String × TableVal))),
      (∃ f ∈ files, f.2.length < ptCount) →
      MagpieData.parseAllAux ptCount pyFloat symbolOfZ files acc =
        .error PyErr.indexError := by
  intro files
  induction files with
  | nil => intro acc h; simp at h
  | cons f fs ih =>
    intro acc h
    by_cases hf : f.2.length < ptCount
    · have hshort : MagpieData.parseFile ptCount pyFloat symbolOfZ f.1 f.2 =
          .error PyErr.indexError := by
        unfold MagpieData.parseFile
        exact MagpieData.parseFileAux_short pyFloat symbolOfZ f.1 f.2
          (List.range ptCount) [] ⟨f.2.length, List.mem_range.mpr hf, Nat.le_refl _⟩
      rw [MagpieData.parseAllAux, hshort]
    · have hlenf : ptCount ≤ f.2.length := Nat.le_of_not_lt hf
      rcases MagpieData.parseFileAux_ok_exists pyFloat symbolOfZ f.1 f.2
        (List.range ptCount) []
        (fun i hi => lt_of_lt_of_le (List.mem_range.mp hi) hlenf) with ⟨res, hres⟩
      have hok : MagpieData.parseFile ptCount pyFloat symbolOfZ f.1 f.2 = .ok res := hres
      rw [MagpieData.parseAllAux, hok]
      refine ih _ ?_
      rcases h with ⟨g, hg, hglen⟩
      rcases List.mem_cons.mp hg with hg1 | hg1
      · exact absurd (hg1 ▸ hglen) hf
      · exact ⟨g, hg1, hglen⟩

/-- Claim C10: a property file with fewer lines than the number of known
atomic numbers makes table construction fail with the uncaught
`IndexError` (no `NaN` degradation for missing lines). -/
theorem C10_short_file_index_error (ptCount : Nat) (pyFloat : String → Option ℚ)
    (symbolOfZ : Nat → String) (files : List (String × List String))
    (h : ∃ f ∈ files, f.2.length < ptCount) :
    MagpieData._parse ptCount pyFloat symbolOfZ files = .error PyErr.indexError :=
  MagpieData.parseAllAux_short ptCount pyFloat symbolOfZ files [] h

/-- Concrete externals for the table-construction witnesses. -/
def symbolOfZC : Nat → String := fun z => if z = 1 then "H" else "He"

/-- Concrete float parser accepting exactly the line "1.0". -/
def pyFloatC : String → Option ℚ := fun s => if s = "1.0" then some 1 else none

/-- Concrete file set: a second line that fails to parse. -/
def filesC : List (String × List String) := [("AtomicRadius", ["1.0", "junk"])]

/-- Witness for C7: with a partially unparseable two-line file,
construction succeeds and every element keeps an entry. -/
theorem C7_nan_degradation_witness :
    ∃ tbl, MagpieData._parse 2 pyFloatC symbolOfZC filesC = .ok tbl ∧
      ∀ name lines, (name, lines) ∈ filesC →
        ∃ entries, List.lookup name tbl = some entries ∧
          ∀ z, 1 ≤ z → z ≤ 2 →
            List.lookup (symbolOfZC z) entries =
              some (MagpieData.parseLine pyFloatC name (lines.getD (z - 1) "")) ∧
            (pyFloatC (lines.getD (z - 1) "") = none → name ∉ ["OxidationStates"] →
              List.lookup (symbolOfZC z) entries = some TableVal.nan) :=
  C7_nan_degradation 2 pyFloatC symbolOfZC filesC (by decide) (by decide) (by decide)

/-- Witness for C10: a file with no lines at all aborts construction with
`IndexError`. -/
theorem C10_short_file_index_error_witness :
    MagpieData._parse 1 pyFloatC symbolOfZC [("Foo", [])] = .error PyErr.indexError :=
  C10_short_file_index_error 1 pyFloatC symbolOfZC [("Foo", [])]
    ⟨("Foo", []), by decide, by decide⟩
